import Mathlib

/-!
Verification of `pyod/models/mo_gaal.py` (MO_GAAL detector).

The development shallowly embeds the parts of `MO_GAAL.fit` and
`MO_GAAL.decision_function` that the checked properties are about:

* the triangular noise-partition scheme of the per-batch noise tensor,
* the concatenation of real and synthetic samples with their labels,
* the percentile targets computed with numpy's default linear-interpolation
  percentile,
* the `stop` flag driving the two-phase (active/frozen) generator schedule of
  the epoch/batch training loop,
* the scoring interface (`decision_scores_`, `decision_function`).

Machine integers of the source are modelled as `Nat`; the Python expressions
`int((((k + (k - i + 1)) * i) / 2) * (batch_size // block))` are modelled with
exact natural-number arithmetic: the products `(k + (k - i + 1)) * i` and
`(k + (k - i)) * (i + 1)` are always even (proved below), so the float
division by 2 is exact and the final `int` truncation is the identity.
Discriminator scores are modelled as rationals.
-/

namespace MoGaal

/-! ## Noise partitioner (`MO_GAAL.fit`, the `for i in range(self.k)` block)

`block = ((1 + self.k) * self.k) // 2`, and generator `i` receives the slice
`noise[noise_start : noise_end]` of the `batch_size`-row noise tensor.  -/

/-- `block = ((1 + self.k) * self.k) // 2` from the source. -/
def block (k : ℕ) : ℕ := ((1 + k) * k) / 2

/-- Cumulative triangular weight in front of generator `i`:
the numerator of the source's `noise_start` expression, halved.  For `i ≤ k`
the product is even, so natural division is the exact value of the source's
float division. -/
def W (k i : ℕ) : ℕ := (k + (k - i + 1)) * i / 2

/-- `noise_start` for generator `i`, from the source:
`int((((self.k + (self.k - i + 1)) * i) / 2) * (batch_size // block))`. -/
def noiseStart (k bs i : ℕ) : ℕ := W k i * (bs / block k)

/-- `noise_end` for generator `i`: for `i ≠ k - 1` the source uses
`int((((self.k + (self.k - i)) * (i + 1)) / 2) * (batch_size // block))`,
and the last generator's slice runs to `batch_size`. -/
def noiseEnd (k bs i : ℕ) : ℕ :=
  if i ≠ k - 1 then (k + (k - i)) * (i + 1) / 2 * (bs / block k) else bs

/-- Number of rows of the slice `noise[a:b]` of a `bs`-row tensor
(Python slicing clamps both bounds and yields an empty slice when `a ≥ b`). -/
def sliceLen (a b bs : ℕ) : ℕ := min b bs - min a bs

/-- Number of noise rows handed to generator `i`. -/
def noisePartSize (k bs i : ℕ) : ℕ :=
  sliceLen (noiseStart k bs i) (noiseEnd k bs i) bs

lemma two_mul_W {k i : ℕ} (h : i ≤ k) : 2 * W k i = (k + (k - i + 1)) * i := by
  obtain ⟨d, rfl⟩ : ∃ d, k = i + d := ⟨k - i, by omega⟩
  have hnum : (i + d + (i + d - i + 1)) * i = i * (i + 1) + 2 * (d * i) := by
    have hd : i + d - i = d := by omega
    rw [hd]; ring
  have hdvd : 2 ∣ (i + d + (i + d - i + 1)) * i := by
    rw [hnum]
    have h1 : 2 ∣ i * (i + 1) := even_iff_two_dvd.mp (Nat.even_mul_succ_self i)
    exact dvd_add h1 ⟨d * i, rfl⟩
  unfold W
  exact Nat.mul_div_cancel' hdvd

lemma two_mul_block (k : ℕ) : 2 * block k = (1 + k) * k := by
  have hdvd : 2 ∣ (1 + k) * k := by
    rcases Nat.even_or_odd k with he | ho
    · exact Dvd.dvd.mul_left (even_iff_two_dvd.mp he) _
    · refine Dvd.dvd.mul_right ?_ _
      rcases ho with ⟨m, rfl⟩
      exact ⟨m + 1, by ring⟩
  unfold block
  exact Nat.mul_div_cancel' hdvd

lemma W_zero (k : ℕ) : W k 0 = 0 := by simp [W]

lemma W_succ {k i : ℕ} (h : i < k) : W k (i + 1) = W k i + (k - i) := by
  have h1 : 2 * W k (i + 1) = (k + (k - (i + 1) + 1)) * (i + 1) :=
    two_mul_W (by omega)
  have h2 : 2 * W k i = (k + (k - i + 1)) * i := two_mul_W (by omega)
  obtain ⟨d, rfl⟩ : ∃ d, k = i + (d + 1) := ⟨k - i - 1, by omega⟩
  have e1 : i + (d + 1) - (i + 1) + 1 = d + 1 := by omega
  have e2 : i + (d + 1) - i + 1 = d + 2 := by omega
  have e3 : i + (d + 1) - i = d + 1 := by omega
  rw [e1] at h1
  rw [e2] at h2
  have key : (i + (d + 1) + (d + 1)) * (i + 1) =
      (i + (d + 1) + (d + 2)) * i + 2 * (d + 1) := by ring
  omega

lemma W_monotone (k : ℕ) : Monotone (W k) := by
  refine monotone_nat_of_le_succ ?_
  intro i
  rcases lt_or_le i k with h | h
  · rw [W_succ h]; omega
  · have e1 : k - i = 0 := by omega
    have e2 : k - (i + 1) = 0 := by omega
    unfold W
    rw [e1, e2]
    exact Nat.div_le_div_right (Nat.mul_le_mul_left _ (by omega))

lemma W_self (k : ℕ) : W k k = block k := by
  unfold W block
  have e : k - k + 1 = 1 := by omega
  rw [e, Nat.add_comm k 1]

lemma W_pred {k : ℕ} (hk : 1 ≤ k) : W k (k - 1) = block k - 1 := by
  obtain ⟨m, rfl⟩ : ∃ m, k = m + 1 := ⟨k - 1, by omega⟩
  have e2 : m + 1 - 1 = m := by omega
  rw [e2]
  have h1 : 2 * W (m + 1) m = (m + 1 + (m + 1 - m + 1)) * m :=
    two_mul_W (by omega)
  have e1 : m + 1 - m + 1 = 2 := by omega
  rw [e1] at h1
  have h2 : 2 * block (m + 1) = (1 + (m + 1)) * (m + 1) := two_mul_block (m + 1)
  have key : (m + 1 + 2) * m + 2 = (1 + (m + 1)) * (m + 1) := by ring
  omega

lemma block_pos {k : ℕ} (hk : 1 ≤ k) : 1 ≤ block k := by
  have h := two_mul_block k
  nlinarith [Nat.one_le_iff_ne_zero.mp hk]

/-- For `i + 1 < k`, the source's `noise_end` for generator `i` is the next
cumulative boundary `W k (i+1) * (batch_size // block)`. -/
lemma noiseEnd_eq_of_lt {k bs i : ℕ} (h : i + 1 < k) :
    noiseEnd k bs i = W k (i + 1) * (bs / block k) := by
  unfold noiseEnd W
  have hne : i ≠ k - 1 := by omega
  have e : k - (i + 1) + 1 = k - i := by omega
  rw [if_pos hne, e]

lemma noiseEnd_last {k bs : ℕ} : noiseEnd k bs (k - 1) = bs := by
  unfold noiseEnd
  simp

/-- Every cumulative boundary of a non-last generator stays at or below
`(block k - 1) * (bs / block k) ≤ bs`. -/
lemma boundary_le_bs {k bs i : ℕ} (hk : 1 ≤ k) (hi : i ≤ k - 1) :
    W k i * (bs / block k) ≤ bs := by
  calc W k i * (bs / block k) ≤ block k * (bs / block k) := by
        refine Nat.mul_le_mul_right _ ?_
        calc W k i ≤ W k k := W_monotone k (by omega)
          _ = block k := W_self k
    _ ≤ bs := by
        rw [Nat.mul_comm]
        exact Nat.div_mul_le_self bs (block k)

lemma noiseStart_le_bs {k bs i : ℕ} (hk : 1 ≤ k) (hi : i ≤ k - 1) :
    noiseStart k bs i ≤ bs := boundary_le_bs hk hi

lemma noiseEnd_le_bs {k bs i : ℕ} (hk : 1 ≤ k) (hi : i < k) :
    noiseEnd k bs i ≤ bs := by
  rcases eq_or_ne i (k - 1) with he | hne
  · rw [he, noiseEnd_last]
  · have h1 : i + 1 < k := by omega
    rw [noiseEnd_eq_of_lt h1]
    exact boundary_le_bs hk (by omega)

lemma noiseStart_le_noiseEnd {k bs i : ℕ} (hk : 1 ≤ k) (hi : i < k) :
    noiseStart k bs i ≤ noiseEnd k bs i := by
  rcases eq_or_ne i (k - 1) with he | hne
  · rw [he, noiseEnd_last]
    exact noiseStart_le_bs hk (by omega)
  · have h1 : i + 1 < k := by omega
    rw [noiseEnd_eq_of_lt h1]
    exact Nat.mul_le_mul_right _ (W_monotone k (by omega))

/-- Consecutive partitions share their boundary: `noise_end i = noise_start (i+1)`. -/
lemma noiseEnd_eq_noiseStart_succ {k bs i : ℕ} (h : i + 1 < k) :
    noiseEnd k bs i = noiseStart k bs (i + 1) :=
  noiseEnd_eq_of_lt h

lemma noisePartSize_eq {k bs i : ℕ} (hk : 1 ≤ k) (hi : i < k) :
    noisePartSize k bs i = noiseEnd k bs i - noiseStart k bs i := by
  unfold noisePartSize sliceLen
  rw [Nat.min_eq_left (noiseEnd_le_bs hk hi),
    Nat.min_eq_left (noiseStart_le_bs hk (by omega))]

/-- Closed form of the partition sizes: for `i + 1 < k` generator `i` receives
exactly `(k - i) * (batch_size // block)` noise rows. -/
lemma noisePartSize_closed {k bs i : ℕ} (h : i + 1 < k) :
    noisePartSize k bs i = (k - i) * (bs / block k) := by
  have hk : 1 ≤ k := by omega
  rw [noisePartSize_eq hk (by omega), noiseEnd_eq_of_lt h, noiseStart,
    W_succ (by omega), Nat.add_mul]
  omega

/-- The last generator receives the remainder `bs - (block k - 1) * (bs / block k)`. -/
lemma noisePartSize_last {k bs : ℕ} (hk : 1 ≤ k) :
    noisePartSize k bs (k - 1) = bs - (block k - 1) * (bs / block k) := by
  rw [noisePartSize_eq hk (by omega), noiseEnd_last, noiseStart, W_pred hk]

lemma sum_noisePartSize {k bs : ℕ} (hk : 1 ≤ k) :
    ∑ i ∈ Finset.range k, noisePartSize k bs i = bs := by
  obtain ⟨m, rfl⟩ : ∃ m, k = m + 1 := ⟨k - 1, by omega⟩
  have hsum : ∑ i ∈ Finset.range m, noisePartSize (m + 1) bs i =
      W (m + 1) m * (bs / block (m + 1)) := by
    have hmono : Monotone (fun i => W (m + 1) i * (bs / block (m + 1))) :=
      fun a b hab => Nat.mul_le_mul_right _ (W_monotone (m + 1) hab)
    calc ∑ i ∈ Finset.range m, noisePartSize (m + 1) bs i
        = ∑ i ∈ Finset.range m,
            (W (m + 1) (i + 1) * (bs / block (m + 1)) -
              W (m + 1) i * (bs / block (m + 1))) := by
          refine Finset.sum_congr rfl ?_
          intro i hi
          have hi' : i + 1 < m + 1 := by
            simpa using Finset.mem_range.mp hi
          rw [noisePartSize_eq (by omega) (by omega), noiseEnd_eq_of_lt hi',
            noiseStart]
      _ = W (m + 1) m * (bs / block (m + 1)) -
            W (m + 1) 0 * (bs / block (m + 1)) := Finset.sum_range_tsub hmono m
      _ = W (m + 1) m * (bs / block (m + 1)) := by rw [W_zero]; simp
  rw [Finset.sum_range_succ, hsum]
  have hW : W (m + 1) m = block (m + 1) - 1 := by
    have h := @W_pred (m + 1) (by omega)
    simpa using h
  have hlast : noisePartSize (m + 1) bs m =
      bs - (block (m + 1) - 1) * (bs / block (m + 1)) := by
    have h := @noisePartSize_last (m + 1) bs (by omega)
    simpa using h
  have hle : (block (m + 1) - 1) * (bs / block (m + 1)) ≤ bs := by
    have h := @boundary_le_bs (m + 1) bs m (by omega) (by omega)
    rwa [hW] at h
  rw [hlast, hW]
  omega

lemma noiseStart_zero (k bs : ℕ) : noiseStart k bs 0 = 0 := by
  simp [noiseStart, W_zero]

lemma noiseStart_mono {k bs : ℕ} {i j : ℕ} (h : i ≤ j) :
    noiseStart k bs i ≤ noiseStart k bs j :=
  Nat.mul_le_mul_right _ (W_monotone k h)

/-- Each row index `j < bs` of the noise tensor lies in exactly one of the
`k` partitions. -/
lemma exists_unique_partition {k bs : ℕ} (hk : 1 ≤ k) {j : ℕ} (hj : j < bs) :
    ∃! i, i < k ∧ noiseStart k bs i ≤ j ∧ j < noiseEnd k bs i := by
  classical
  set P : ℕ → Prop := fun i => noiseStart k bs i ≤ j with hP
  set i₀ : ℕ := Nat.findGreatest P (k - 1) with hi₀
  have hi₀le : i₀ ≤ k - 1 := Nat.findGreatest_le (k - 1)
  have hP0 : P 0 := by simp [hP, noiseStart_zero]
  have hPi₀ : P i₀ := Nat.findGreatest_spec (Nat.zero_le _) hP0
  have hend : j < noiseEnd k bs i₀ := by
    rcases eq_or_ne i₀ (k - 1) with he | hne
    · rw [he, noiseEnd_last]; exact hj
    · have hlt : i₀ + 1 ≤ k - 1 := by omega
      have hnot : ¬ P (i₀ + 1) :=
        Nat.findGreatest_is_greatest (by omega) hlt
      have h1 : i₀ + 1 < k := by omega
      rw [noiseEnd_eq_noiseStart_succ h1]
      omega
  refine ⟨i₀, ⟨by omega, hPi₀, hend⟩, ?_⟩
  intro i' ⟨hi'k, hstart', hend'⟩
  by_contra hne
  rcases Nat.lt_or_ge i' i₀ with hlt | hge
  · have h1 : i' + 1 < k := by omega
    have : noiseEnd k bs i' ≤ noiseStart k bs i₀ := by
      rw [noiseEnd_eq_noiseStart_succ h1]
      exact noiseStart_mono (by omega)
    omega
  · have hgt : i₀ < i' := by omega
    have hnot : ¬ P i' := Nat.findGreatest_is_greatest hgt (by omega)
    exact hnot hstart'

/-- Claim C1: for every `k ≥ 1` and batch with `batch_size ≥ k`, the noise
partition boundaries computed in `fit` are non-decreasing, consecutive
partitions meet exactly at their shared boundary (so they are pairwise
non-overlapping), the partitions cover the row range `[0, batch_size)`
exactly once, and the partition sizes sum exactly to `batch_size`. -/
theorem noise_partition_exact_cover (k bs : ℕ) (hk : 1 ≤ k) (hbs : k ≤ bs) :
    (∀ i, i < k → noiseStart k bs i ≤ noiseEnd k bs i ∧ noiseEnd k bs i ≤ bs) ∧
    (∀ i, i + 1 < k → noiseEnd k bs i = noiseStart k bs (i + 1)) ∧
    noiseStart k bs 0 = 0 ∧ noiseEnd k bs (k - 1) = bs ∧
    (∀ j, j < bs →
      ∃! i, i < k ∧ noiseStart k bs i ≤ j ∧ j < noiseEnd k bs i) ∧
    ∑ i ∈ Finset.range k, noisePartSize k bs i = bs := by
  refine ⟨fun i hi => ⟨noiseStart_le_noiseEnd hk hi, noiseEnd_le_bs hk hi⟩,
    fun i hi => noiseEnd_eq_noiseStart_succ hi,
    noiseStart_zero k bs, noiseEnd_last,
    fun j hj => exists_unique_partition hk hj,
    sum_noisePartSize hk⟩

/-- Witness for C1 at `k = 3`, `batch_size = 10` (`block = 6`, quotient 1,
partition sizes `[3, 2, 5]`). -/
theorem noise_partition_exact_cover_w :
    1 ≤ 3 ∧ 3 ≤ 10 ∧
    noisePartSize 3 10 0 = 3 ∧ noisePartSize 3 10 1 = 2 ∧
    noisePartSize 3 10 2 = 5 ∧
    ((∀ i, i < 3 →
        noiseStart 3 10 i ≤ noiseEnd 3 10 i ∧ noiseEnd 3 10 i ≤ 10) ∧
      (∀ i, i + 1 < 3 → noiseEnd 3 10 i = noiseStart 3 10 (i + 1)) ∧
      noiseStart 3 10 0 = 0 ∧ noiseEnd 3 10 (3 - 1) = 10 ∧
      (∀ j, j < 10 →
        ∃! i, i < 3 ∧ noiseStart 3 10 i ≤ j ∧ j < noiseEnd 3 10 i) ∧
      ∑ i ∈ Finset.range 3, noisePartSize 3 10 i = 10) :=
  ⟨by decide, by decide, by decide, by decide, by decide,
    noise_partition_exact_cover 3 10 (by decide) (by decide)⟩

/-- Counterexample to claim C2 at `k = 2`, `batch_size = 6` (`block = 3`,
quotient 2): generator 0 receives 4 noise rows while generator 1 receives
only 2, so the partition sizes are not non-decreasing in the generator index
and generator 0 does not receive the smallest slice. -/
theorem noise_partition_sizes_not_nondecreasing :
    noisePartSize 2 6 0 = 4 ∧ noisePartSize 2 6 1 = 2 ∧
    ¬ noisePartSize 2 6 0 ≤ noisePartSize 2 6 1 := by decide

/-- Claim C2 (amended): for every `k ≥ 2` and every batch, the closed-form
boundaries give generator `i < k - 1` exactly `(k - i) * (batch_size // block)`
noise rows, so among the first `k - 1` generators the slice sizes are
non-increasing in the generator index — generator 0 receives the largest
slice and each later generator `i ≤ k - 2` receives a slice at most as large
as generator `i - 1`'s — while the last generator receives the remaining
`batch_size - (block - 1) * (batch_size // block)` rows. -/
theorem noise_partition_sizes_antitone (k bs : ℕ) (hk : 2 ≤ k) :
    (∀ i, i + 1 < k → noisePartSize k bs i = (k - i) * (bs / block k)) ∧
    (∀ i j, i ≤ j → j + 1 < k → noisePartSize k bs j ≤ noisePartSize k bs i) ∧
    noisePartSize k bs (k - 1) = bs - (block k - 1) * (bs / block k) := by
  refine ⟨fun i hi => noisePartSize_closed hi, ?_, noisePartSize_last (by omega)⟩
  intro i j hij hj
  rw [noisePartSize_closed hj, noisePartSize_closed (by omega)]
  exact Nat.mul_le_mul_right _ (by omega)

/-- Witness for the amended C2 at `k = 3`, `batch_size = 10`
(sizes `[3, 2, 5]`). -/
theorem noise_partition_sizes_antitone_w :
    2 ≤ 3 ∧
    ((∀ i, i + 1 < 3 → noisePartSize 3 10 i = (3 - i) * (10 / block 3)) ∧
      (∀ i j, i ≤ j → j + 1 < 3 →
        noisePartSize 3 10 j ≤ noisePartSize 3 10 i) ∧
      noisePartSize 3 10 (3 - 1) = 10 - (block 3 - 1) * (10 / block 3)) :=
  ⟨by decide, noise_partition_sizes_antitone 3 10 (by decide)⟩

/-- Claim C10: for every `k ≥ 2` and every batch with
`batch_size < block = k (k + 1) / 2`, the quotient `batch_size // block` is 0,
so every non-last noise partition is the empty slice `[0, 0)` while the last
partition receives the whole noise tensor. -/
theorem noise_partition_degenerate (k bs : ℕ) (hk : 2 ≤ k)
    (hbs : bs < block k) :
    bs / block k = 0 ∧
    (∀ i, i + 1 < k → noiseStart k bs i = 0 ∧ noiseEnd k bs i = 0 ∧
      noisePartSize k bs i = 0) ∧
    noiseStart k bs (k - 1) = 0 ∧ noiseEnd k bs (k - 1) = bs ∧
    noisePartSize k bs (k - 1) = bs := by
  have hq : bs / block k = 0 := Nat.div_eq_of_lt hbs
  refine ⟨hq, fun i hi => ?_, ?_, noiseEnd_last, ?_⟩
  · refine ⟨by simp [noiseStart, hq], ?_, ?_⟩
    · rw [noiseEnd_eq_of_lt hi, hq]; simp
    · rw [noisePartSize_closed hi, hq]; simp
  · simp [noiseStart, hq]
  · rw [noisePartSize_last (by omega), hq]
    simp

/-! ## Discriminator input and labels (`MO_GAAL.fit`, the `torch.cat` block)

`all_data = torch.cat([data_batch] + [generated_data_i for i in range(k)])`
and `labels = torch.cat([ones(batch_size, 1), zeros(sum(sizes), 1)])` where
`sizes` are the row counts of the generated batches.  Rows are modelled as an
arbitrary type; only row counts and label values matter to the claim. -/

/-- The discriminator input of one batch step: the real batch followed by the
`k` synthetic batches, in generator order. -/
def allData {α : Type} (real : List α) (gens : List (List α)) : List α :=
  real ++ gens.flatten

/-- The label vector of one batch step: a 1 for each of the `batch_size` real
rows followed by a 0 for each synthetic row (the source sums the generated
batches' row counts for the zero block). -/
def labelsFor {α : Type} (bs : ℕ) (gens : List (List α)) : List ℕ :=
  List.replicate bs 1 ++ List.replicate (gens.map List.length).sum 0

/-- The structural assertion guarding the discriminator step:
`assert all_data.size(0) == labels.size(0)`. -/
def labelsAssert {α : Type} (real : List α) (gens : List (List α)) : Bool :=
  (allData real gens).length == (labelsFor real.length gens).length

lemma length_allData {α : Type} (real : List α) (gens : List (List α)) :
    (allData real gens).length = real.length + (gens.map List.length).sum := by
  simp [allData]

lemma length_labelsFor {α : Type} (bs : ℕ) (gens : List (List α)) :
    (labelsFor bs gens).length = bs + (gens.map List.length).sum := by
  simp [labelsFor]

/-- Claim C3: in every batch step the discriminator input is the real batch
followed by the `k` synthetic batches; the first `batch_size` labels are all
1 and the remaining labels (one per synthetic row) are all 0; the
concatenated sample count always equals the concatenated label count, so the
structural-mismatch assertion's failure branch is unreachable.  This holds
for arbitrary generator outputs, in particular under the claim's precondition
that each generator preserves its noise partition's row count. -/
theorem labels_real_one_synthetic_zero {α : Type} (real : List α)
    (gens : List (List α)) :
    (allData real gens).take real.length = real ∧
    (allData real gens).drop real.length = gens.flatten ∧
    (allData real gens).length = (labelsFor real.length gens).length ∧
    (∀ j, j < (labelsFor real.length gens).length →
      (labelsFor real.length gens).getD j 2 =
        if j < real.length then 1 else 0) ∧
    labelsAssert real gens = true := by
  refine ⟨by simp [allData], by simp [allData], ?_, ?_, ?_⟩
  · rw [length_allData, length_labelsFor]
  · intro j hj
    rw [length_labelsFor] at hj
    unfold labelsFor
    rcases Nat.lt_or_ge j real.length with hlt | hge
    · rw [List.getD_eq_getElem _ _ (by simp; omega),
        List.getElem_append_left (by simp; omega)]
      simp [hlt]
    · rw [List.getD_eq_getElem _ _ (by simp; omega),
        List.getElem_append_right (by simp; omega)]
      simp only [List.getElem_replicate]
      rw [if_neg (by omega)]
  · unfold labelsAssert
    rw [length_allData, length_labelsFor]
    simp

/-- Witness for C10 at `k = 3`, `batch_size = 4` (`block = 6 > 4`). -/
theorem noise_partition_degenerate_w :
    2 ≤ 3 ∧ 4 < block 3 ∧
    (4 / block 3 = 0 ∧
      (∀ i, i + 1 < 3 → noiseStart 3 4 i = 0 ∧ noiseEnd 3 4 i = 0 ∧
        noisePartSize 3 4 i = 0) ∧
      noiseStart 3 4 (3 - 1) = 0 ∧ noiseEnd 3 4 (3 - 1) = 4 ∧
      noisePartSize 3 4 (3 - 1) = 4) :=
  ⟨by decide, by decide, noise_partition_degenerate 3 4 (by decide) (by decide)⟩

/-! ## Percentile targets (`np.percentile(pred_scores, i / self.k * 100)`)

`fit` sets `T_i = np.percentile(pred_scores, i / self.k * 100)` for each
generator.  numpy's default percentile sorts the scores ascending and
linearly interpolates at the fractional index `(n - 1) * q / 100`.  Scores
are modelled as rationals. -/

/-- Linear interpolation into a score list `s` of length `n` at fractional
index `h`: with `lo = ⌊h⌋` and `hi = min (lo + 1) (n - 1)`, the value is
`s[lo] + (h - lo) * (s[hi] - s[lo])` (numpy's default interpolation; when
`h` is integral the second summand vanishes, so clamping `hi` at `n - 1`
agrees with numpy for every `h ∈ [0, n - 1]`). -/
def interpAt (s : List ℚ) (n : ℕ) (h : ℚ) : ℚ :=
  s.getD (⌊h⌋).toNat 0 +
    (h - ((⌊h⌋).toNat : ℚ)) *
      (s.getD (min ((⌊h⌋).toNat + 1) (n - 1)) 0 - s.getD (⌊h⌋).toNat 0)

/-- numpy's default (linear-interpolation) percentile of a score list at
`q ∈ [0, 100]`: sort ascending, then interpolate at `(n - 1) * (q / 100)`. -/
def npPercentile (l : List ℚ) (q : ℚ) : ℚ :=
  interpAt (l.insertionSort (· ≤ ·)) l.length (((l.length : ℚ) - 1) * (q / 100))

lemma sorted_getD_mono {s : List ℚ} (hs : List.Sorted (· ≤ ·) s)
    {a b : ℕ} (hab : a ≤ b) (hb : b < s.length) :
    s.getD a 0 ≤ s.getD b 0 := by
  rcases eq_or_lt_of_le hab with rfl | hlt
  · exact le_refl _
  · rw [List.getD_eq_getElem _ _ (by omega), List.getD_eq_getElem _ _ hb]
    exact List.pairwise_iff_getElem.mp hs a b (by omega) hb hlt

/-- Linear interpolation into a sorted list is monotone in the fractional
index over `[0, n - 1]`. -/
lemma interpAt_mono {s : List ℚ} {n : ℕ} (hs : List.Sorted (· ≤ ·) s)
    (hlen : s.length = n) (hn : 1 ≤ n) {h₁ h₂ : ℚ}
    (h0 : 0 ≤ h₁) (h12 : h₁ ≤ h₂) (htop : h₂ ≤ (n : ℚ) - 1) :
    interpAt s n h₁ ≤ interpAt s n h₂ := by
  have f1 : (0 : ℤ) ≤ ⌊h₁⌋ := Int.floor_nonneg.mpr h0
  have f2 : (0 : ℤ) ≤ ⌊h₂⌋ := Int.floor_nonneg.mpr (h0.trans h12)
  unfold interpAt
  set L₁ : ℕ := (⌊h₁⌋).toNat with hL₁
  set L₂ : ℕ := (⌊h₂⌋).toNat with hL₂
  have c1 : (L₁ : ℚ) = (⌊h₁⌋ : ℚ) := by
    rw [hL₁]; exact_mod_cast congrArg (fun z : ℤ => (z : ℚ)) (Int.toNat_of_nonneg f1)
  have c2 : (L₂ : ℚ) = (⌊h₂⌋ : ℚ) := by
    rw [hL₂]; exact_mod_cast congrArg (fun z : ℤ => (z : ℚ)) (Int.toNat_of_nonneg f2)
  have glb₁ : (L₁ : ℚ) ≤ h₁ := by rw [c1]; exact Int.floor_le h₁
  have gub₁ : h₁ < (L₁ : ℚ) + 1 := by rw [c1]; exact Int.lt_floor_add_one h₁
  have glb₂ : (L₂ : ℚ) ≤ h₂ := by rw [c2]; exact Int.floor_le h₂
  have hfl2 : ⌊h₂⌋ ≤ (n : ℤ) - 1 := by
    have h' : ⌊h₂⌋ ≤ ⌊(((n : ℤ) - 1 : ℤ) : ℚ)⌋ :=
      Int.floor_le_floor (by push_cast; linarith)
    simpa using h'
  have hL₂n : L₂ ≤ n - 1 := by
    rw [hL₂]
    refine Int.toNat_le.mpr ?_
    have e : ((n - 1 : ℕ) : ℤ) = (n : ℤ) - 1 := by omega
    rw [e]; exact hfl2
  have hL₁₂ : L₁ ≤ L₂ := by
    rw [hL₁, hL₂]; exact Int.toNat_le_toNat (Int.floor_le_floor h12)
  have hL₁n : L₁ ≤ n - 1 := le_trans hL₁₂ hL₂n
  set H₁ : ℕ := min (L₁ + 1) (n - 1) with hH₁
  set H₂ : ℕ := min (L₂ + 1) (n - 1) with hH₂
  have hL₁H₁ : L₁ ≤ H₁ := le_min (by omega) hL₁n
  have hH₁n : H₁ < s.length := by rw [hlen]; omega
  have hH₂n : H₂ < s.length := by rw [hlen]; omega
  have hL₂lt : L₂ < s.length := by rw [hlen]; omega
  have Δ₁ : 0 ≤ s.getD H₁ 0 - s.getD L₁ 0 :=
    sub_nonneg.mpr (sorted_getD_mono hs hL₁H₁ hH₁n)
  have Δ₂ : 0 ≤ s.getD H₂ 0 - s.getD L₂ 0 :=
    sub_nonneg.mpr (sorted_getD_mono hs (le_min (by omega) hL₂n) hH₂n)
  rcases eq_or_lt_of_le hL₁₂ with heq | hlt
  · rw [← heq] at glb₂ ⊢
    have hHeq : H₂ = H₁ := by rw [hH₁, hH₂, ← heq]
    rw [hHeq]
    have hmul : (h₁ - (L₁ : ℚ)) * (s.getD H₁ 0 - s.getD L₁ 0) ≤
        (h₂ - (L₁ : ℚ)) * (s.getD H₁ 0 - s.getD L₁ 0) :=
      mul_le_mul_of_nonneg_right (by linarith) Δ₁
    linarith
  · have up1 : s.getD L₁ 0 +
        (h₁ - (L₁ : ℚ)) * (s.getD H₁ 0 - s.getD L₁ 0) ≤ s.getD H₁ 0 := by
      nlinarith
    have mid : s.getD H₁ 0 ≤ s.getD L₂ 0 :=
      sorted_getD_mono hs (by omega) hL₂lt
    have low2 : s.getD L₂ 0 ≤ s.getD L₂ 0 +
        (h₂ - (L₂ : ℚ)) * (s.getD H₂ 0 - s.getD L₂ 0) := by
      nlinarith
    linarith

/-- Claim C4: the `k` percentile targets `T_i = np.percentile(scores, i/k*100)`
computed in every batch step of `fit` are non-decreasing in the generator
index `i`, for any discriminator score distribution. -/
theorem percentile_targets_monotone (scores : List ℚ) (k i j : ℕ)
    (hne : scores ≠ []) (hij : i ≤ j) (hjk : j < k) :
    npPercentile scores ((i : ℚ) / (k : ℚ) * 100) ≤
      npPercentile scores ((j : ℚ) / (k : ℚ) * 100) := by
  have hk : 0 < k := by omega
  have hkQ : (0 : ℚ) < (k : ℚ) := by exact_mod_cast hk
  have hn : 1 ≤ scores.length := List.length_pos.mpr hne
  have hnQ : (1 : ℚ) ≤ (scores.length : ℚ) := by exact_mod_cast hn
  unfold npPercentile
  have hs : List.Sorted (· ≤ ·) (scores.insertionSort (· ≤ ·)) :=
    List.sorted_insertionSort _ _
  have hlen : (scores.insertionSort (· ≤ ·)).length = scores.length :=
    List.length_insertionSort _ _
  have e100 : (100 : ℚ) ≠ 0 := by norm_num
  have ei : (i : ℚ) / (k : ℚ) * 100 / 100 = (i : ℚ) / (k : ℚ) :=
    mul_div_cancel_right₀ _ e100
  have ej : (j : ℚ) / (k : ℚ) * 100 / 100 = (j : ℚ) / (k : ℚ) :=
    mul_div_cancel_right₀ _ e100
  rw [ei, ej]
  have hiq : (0 : ℚ) ≤ (i : ℚ) / (k : ℚ) :=
    div_nonneg (by positivity) (le_of_lt hkQ)
  have hijq : (i : ℚ) / (k : ℚ) ≤ (j : ℚ) / (k : ℚ) := by
    refine (div_le_div_iff_of_pos_right hkQ).mpr ?_
    exact_mod_cast hij
  have hjq1 : (j : ℚ) / (k : ℚ) ≤ 1 := by
    rw [div_le_one hkQ]
    exact_mod_cast le_of_lt hjk
  refine interpAt_mono hs hlen hn ?_ ?_ ?_
  · exact mul_nonneg (by linarith) hiq
  · exact mul_le_mul_of_nonneg_left hijq (by linarith)
  · calc ((scores.length : ℚ) - 1) * ((j : ℚ) / (k : ℚ))
        ≤ ((scores.length : ℚ) - 1) * 1 :=
          mul_le_mul_of_nonneg_left hjq1 (by linarith)
      _ = (scores.length : ℚ) - 1 := by ring

/-- Witness for C4 at `scores = [0, 1, 2]`, `k = 2`, `i = 0`, `j = 1`. -/
theorem percentile_targets_monotone_w :
    ([(0 : ℚ), 1, 2] ≠ []) ∧ (0 : ℕ) ≤ 1 ∧ (1 : ℕ) < 2 ∧
    npPercentile [(0 : ℚ), 1, 2] (((0 : ℕ) : ℚ) / ((2 : ℕ) : ℚ) * 100) ≤
      npPercentile [(0 : ℚ), 1, 2] (((1 : ℕ) : ℚ) / ((2 : ℕ) : ℚ) * 100) :=
  ⟨by simp, by decide, by decide,
    percentile_targets_monotone [(0 : ℚ), 1, 2] 2 0 1 (by simp) (by decide)
      (by decide)⟩

/-! ## Training-loop schedule and the `stop` flag (`MO_GAAL.fit`)

The source initializes `stop = 0`, runs `for epoch in range(epochs)` with
`epochs = self.stop_epochs * 3`, and inside `for batch_idx, ... in
enumerate(dataloader)` trains the generators with an optimizer step when
`stop == 0` and only evaluates them under `torch.no_grad()` otherwise; the
last statement of every batch body is `if epoch + 1 > self.stop_epochs:
stop = 1`.  The embedding records, per batch, the 0-indexed epoch, the batch
index, and whether the generators received an optimizer step. -/

/-- One batch body of `fit`, as far as the `stop` flag is concerned: the
state is the current flag value paired with the log of
`(epoch, batch_idx, generators updated?)` triples. -/
def batchStep (stopEpochs epoch : ℕ) (st : ℕ × List (ℕ × ℕ × Bool))
    (b : ℕ) : ℕ × List (ℕ × ℕ × Bool) :=
  (if stopEpochs < epoch + 1 then 1 else st.1,
    st.2 ++ [(epoch, b, decide (st.1 = 0))])

/-- One epoch of `fit`: the batch loop over `nb` batches. -/
def epochStep (stopEpochs nb : ℕ) (st : ℕ × List (ℕ × ℕ × Bool))
    (epoch : ℕ) : ℕ × List (ℕ × ℕ × Bool) :=
  (List.range nb).foldl (batchStep stopEpochs epoch) st

/-- The whole training loop of `fit`: `stop = 0`, then
`for epoch in range(stop_epochs * 3)` over `nb` batches per epoch. -/
def fitTrace (stopEpochs nb : ℕ) : ℕ × List (ℕ × ℕ × Bool) :=
  (List.range (stopEpochs * 3)).foldl (epochStep stopEpochs nb) (0, [])

/-- The closed form of the first `E` epochs of the log: the generators
receive an optimizer step exactly in the batches of 0-indexed epochs
`e < stopEpochs` and in the first batch of epoch `stopEpochs`. -/
def expectedTrace (stopEpochs nb E : ℕ) : List (ℕ × ℕ × Bool) :=
  (List.range E).flatMap (fun e => (List.range nb).map
    (fun b => (e, b, decide (e < stopEpochs ∨ (e = stopEpochs ∧ b = 0)))))

lemma batchStep_frozen (se e : ℕ) (lg : List (ℕ × ℕ × Bool)) (bs : List ℕ)
    (h : se < e + 1) :
    bs.foldl (batchStep se e) (1, lg) =
      (1, lg ++ bs.map (fun b => (e, b, false))) := by
  induction bs generalizing lg with
  | nil => simp
  | cons b tl ih =>
    rw [List.foldl_cons]
    have hb : batchStep se e (1, lg) b = (1, lg ++ [(e, b, false)]) := by
      unfold batchStep
      simp [h]
    rw [hb, ih]
    simp

lemma epochStep_active (se e nb : ℕ) (s0 : ℕ) (lg : List (ℕ × ℕ × Bool))
    (h : e < se) :
    epochStep se nb (s0, lg) e =
      (s0, lg ++ (List.range nb).map (fun b => (e, b, decide (s0 = 0)))) := by
  unfold epochStep
  induction nb generalizing lg with
  | zero => simp
  | succ m ih =>
    rw [List.range_succ, List.foldl_append, ih]
    unfold batchStep
    have hne : ¬ se < e + 1 := by omega
    simp [hne]

lemma epochStep_freezing (se e m : ℕ) (s0 : ℕ) (lg : List (ℕ × ℕ × Bool))
    (h : se < e + 1) :
    epochStep se (m + 1) (s0, lg) e =
      (1, lg ++ (e, 0, decide (s0 = 0)) ::
        (List.range' 1 m).map (fun b => (e, b, false))) := by
  unfold epochStep
  have hsplit : List.range (m + 1) = 0 :: List.range' 1 m := by
    rw [List.range_eq_range']
    exact List.range'_succ 0 m 1
  rw [hsplit, List.foldl_cons]
  have hb : batchStep se e (s0, lg) 0 = (1, lg ++ [(e, 0, decide (s0 = 0))]) := by
    unfold batchStep
    simp [h]
  rw [hb, batchStep_frozen se e _ _ h]
  simp

/-- Stop-flag invariant of the epoch loop: after the first `E` epochs the
flag is 0 exactly while `E ≤ stopEpochs`, and the log is the closed form
`expectedTrace`. -/
lemma fitTrace_run (se nb : ℕ) (hnb : 1 ≤ nb) (E : ℕ) :
    (List.range E).foldl (epochStep se nb) (0, []) =
      (if E ≤ se then 0 else 1, expectedTrace se nb E) := by
  induction E with
  | zero => simp [expectedTrace]
  | succ E ih =>
    rw [List.range_succ, List.foldl_append, ih]
    simp only [List.foldl_cons, List.foldl_nil]
    have hexp : expectedTrace se nb (E + 1) = expectedTrace se nb E ++
        (List.range nb).map
          (fun b => (E, b, decide (E < se ∨ (E = se ∧ b = 0)))) := by
      unfold expectedTrace
      rw [List.range_succ, List.flatMap_append]
      simp
    rcases Nat.lt_or_ge E se with hE | hE
    · rw [if_pos (le_of_lt hE),
        epochStep_active se E nb 0 (expectedTrace se nb E) hE,
        if_pos (by omega), hexp]
      refine congrArg _ ?_
      refine congrArg _ (List.map_congr_left ?_)
      intro b _
      simp [hE]
    · obtain ⟨m, rfl⟩ : ∃ m, nb = m + 1 := ⟨nb - 1, by omega⟩
      have hsplit : List.range (m + 1) = 0 :: List.range' 1 m := by
        rw [List.range_eq_range']
        exact List.range'_succ 0 m 1
      rcases eq_or_lt_of_le hE with rfl | hgt
      · rw [if_pos (le_refl _),
          epochStep_freezing se se m 0 (expectedTrace se (m + 1) se)
            (by omega),
          if_neg (by omega), hexp, hsplit]
        refine congrArg _ ?_
        refine congrArg _ ?_
        rw [List.map_cons]
        refine congrArg₂ _ (by simp) (List.map_congr_left ?_)
        intro b hb
        have hb1 : 1 ≤ b := (List.mem_range'_1.mp hb).1
        have hne : ¬ (se < se ∨ (se = se ∧ b = 0)) := by omega
        simp [hne]
        omega
      · rw [if_neg (by omega)]
        show (List.range (m + 1)).foldl (batchStep se E)
            (1, expectedTrace se (m + 1) E) = _
        rw [batchStep_frozen se E (expectedTrace se (m + 1) E) _ (by omega),
          if_neg (by omega), hexp]
        refine congrArg _ ?_
        refine congrArg _ (List.map_congr_left ?_)
        intro b _
        have hne : ¬ (E < se ∨ (E = se ∧ b = 0)) := by omega
        simp [hne]

/-- Claim C5: the stop flag starts in the ACTIVE state (`stop = 0`), is
checked at the end of every batch using the current epoch index, and flips to
FROZEN during the first batch of 1-indexed epoch `stop_epochs + 1`
(0-indexed epoch `stop_epochs`), so the generators still receive an
optimizer update on that first batch; once FROZEN it never returns to
ACTIVE: in every other batch at or after that epoch the generators receive
no optimizer step. -/
theorem stop_flag_two_phase (se nb : ℕ) (hse : 1 ≤ se) (hnb : 1 ≤ nb) :
    (fitTrace se nb).2 = expectedTrace se nb (se * 3) ∧
    (∀ e b u, (e, b, u) ∈ (fitTrace se nb).2 →
      (u = true ↔ (e < se ∨ (e = se ∧ b = 0)))) ∧
    (se, 0, true) ∈ (fitTrace se nb).2 ∧
    (fitTrace se nb).1 = 1 := by
  have hT : fitTrace se nb = (1, expectedTrace se nb (se * 3)) := by
    unfold fitTrace
    rw [fitTrace_run se nb hnb (se * 3), if_neg (by omega)]
  have hmem : ∀ e b u, (e, b, u) ∈ expectedTrace se nb (se * 3) →
      u = decide (e < se ∨ (e = se ∧ b = 0)) := by
    intro e b u hm
    unfold expectedTrace at hm
    rw [List.mem_flatMap] at hm
    obtain ⟨a, _, hm2⟩ := hm
    rw [List.mem_map] at hm2
    obtain ⟨b', _, heq⟩ := hm2
    cases heq
    rfl
  refine ⟨by rw [hT], ?_, ?_, by rw [hT]⟩
  · intro e b u hm
    rw [hT] at hm
    rw [hmem e b u hm]
    simp
  · rw [hT]
    unfold expectedTrace
    rw [List.mem_flatMap]
    exact ⟨se, List.mem_range.mpr (by omega),
      List.mem_map.mpr ⟨0, List.mem_range.mpr (by omega), by simp⟩⟩

/-- Witness for C5 at `stop_epochs = 1`, one batch per epoch (3 epochs;
generators updated in epochs 0 and 1, frozen in epoch 2). -/
theorem stop_flag_two_phase_w :
    1 ≤ 1 ∧
    ((fitTrace 1 1).2 = expectedTrace 1 1 (1 * 3) ∧
      (∀ e b u, (e, b, u) ∈ (fitTrace 1 1).2 →
        (u = true ↔ (e < 1 ∨ (e = 1 ∧ b = 0)))) ∧
      (1, 0, true) ∈ (fitTrace 1 1).2 ∧
      (fitTrace 1 1).1 = 1) :=
  ⟨by decide, stop_flag_two_phase 1 1 (by decide) (by decide)⟩

/-- Claim C6: `fit` runs the training loop for exactly
`epochs = stop_epochs * 3` epochs, unconditionally: the logged batch steps
are exactly `nb` steps for each 0-indexed epoch `0, …, stop_epochs * 3 - 1`
in order — the loop neither stops early nor runs extra epochs, regardless of
the frozen/active state of the generators. -/
theorem loop_runs_three_stop_epochs (se nb : ℕ) (hnb : 1 ≤ nb) :
    (fitTrace se nb).2.map (fun t => t.1) =
      (List.range (se * 3)).flatMap (fun e => List.replicate nb e) ∧
    (fitTrace se nb).2.length = se * 3 * nb := by
  have hT : (fitTrace se nb).2 = expectedTrace se nb (se * 3) := by
    unfold fitTrace
    rw [fitTrace_run se nb hnb (se * 3)]
  rw [hT]
  unfold expectedTrace
  constructor
  · rw [List.map_flatMap]
    refine List.flatMap_congr ?_
    intro e _
    rw [List.map_map]
    have : ((fun t : ℕ × ℕ × Bool => t.1) ∘
        fun b => (e, b, decide (e < se ∨ (e = se ∧ b = 0)))) =
          fun _ : ℕ => e := rfl
    rw [this, List.map_const']
    simp
  · rw [List.length_flatMap]
    have hc : (List.length ∘ fun e => (List.range nb).map
        (fun b => (e, b, decide (e < se ∨ (e = se ∧ b = 0))))) =
          fun _ : ℕ => nb := by
      funext e
      simp
    rw [hc, List.map_const']
    simp

/-- Witness for C6 at `stop_epochs = 1`, two batches per epoch. -/
theorem loop_runs_three_stop_epochs_w :
    1 ≤ 2 ∧
    ((fitTrace 1 2).2.map (fun t => t.1) =
      (List.range (1 * 3)).flatMap (fun e => List.replicate 2 e) ∧
      (fitTrace 1 2).2.length = 1 * 3 * 2) :=
  ⟨by decide, loop_runs_three_stop_epochs 1 2 (by decide)⟩

/-! ## Scoring interface (`fit` result attributes and `decision_function`)

The discriminator network itself is produced by `create_discriminator` in
`gaal_base`, which is not part of the sources under audit; it is modelled
from the spec as an opaque per-row scorer.  `check_array` and
`check_is_fitted` are scikit-learn utilities, modelled by their documented
behaviour: array validation (2D, at least one row and one column, consistent
row lengths) and fitted-attribute presence checking. -/

/-- Modelled from the spec: `create_discriminator` (from `gaal_base`, not
under `src/`) returns an opaque differentiable mapping that maps any sample
batch, real or synthetic and of arbitrary batch size, to one scalar score
per sample.  Only this row-count contract is relevant to the claims. -/
structure Discriminator where
  score : List (List ℚ) → List ℚ
  score_length : ∀ X, (score X).length = X.length

/-- Validity of a 2D numeric input array as enforced by scikit-learn's
`check_array` with default arguments: at least one row, at least one column,
and rectangular shape. -/
def validArrayB (X : List (List ℚ)) : Bool :=
  decide (1 ≤ X.length) &&
    X.all (fun r => decide (1 ≤ r.length) && r.length == (X.headD []).length)

/-- Errors surfaced by the scoring interface: the unfitted-estimator
precondition failure of `check_is_fitted` and the input-validation failure
of `check_array`. -/
inductive ScoreError where
  | notFitted
  | invalidInput
deriving DecidableEq

/-- The estimator attributes relevant to scoring: `self.discriminator`
exists only after `fit` has created it, and `self.decision_scores_` only
after `fit` has assigned it. -/
structure MO_GAAL where
  discriminator : Option Discriminator
  decision_scores : Option (List ℚ)

/-- `check_is_fitted(self, ['discriminator'])`: raises the not-fitted error
exactly when the attribute is absent. -/
def check_is_fitted (m : MO_GAAL) : Except ScoreError Discriminator :=
  match m.discriminator with
  | some D => .ok D
  | none => .error .notFitted

/-- `check_array(X)`: returns the validated array or raises. -/
def check_array (X : List (List ℚ)) : Except ScoreError (List (List ℚ)) :=
  if validArrayB X then .ok X else .error .invalidInput

/-- The final lines of `fit`: score the whole training set with the trained
discriminator, `ravel()` the per-row scalars, and store the attributes
(`_process_decision_scores` of the base class derives `threshold_` and
`labels_` from `decision_scores_` without changing it). -/
def fitResult (D : Discriminator) (X : List (List ℚ)) : MO_GAAL :=
  { discriminator := some D, decision_scores := some (D.score X) }

/-- `MO_GAAL.decision_function`: validate fitted state, validate the input,
then score every row with the discriminator. -/
def decision_function (m : MO_GAAL) (X : List (List ℚ)) :
    Except ScoreError (List ℚ) :=
  match check_is_fitted m with
  | .error e => .error e
  | .ok D =>
    match check_array X with
    | .error e => .error e
    | .ok X' => .ok (D.score X')

/-- Claim C7: after `fit(X)` on a valid 2D input with `n` rows,
`decision_scores_` is set and holds exactly one discriminator score per row
of `X`. -/
theorem decision_scores_shape (D : Discriminator) (X : List (List ℚ))
    (hX : validArrayB X = true) :
    (fitResult D X).decision_scores = some (D.score X) ∧
    (D.score X).length = X.length :=
  ⟨rfl, D.score_length X⟩

/-- A concrete discriminator scoring every row 0, for the witnesses. -/
def constDiscriminator : Discriminator :=
  ⟨fun X => X.map (fun _ => 0), fun X => by simp⟩

/-- Witness for C7 on the 1×1 input `[[0]]`. -/
theorem decision_scores_shape_w :
    validArrayB [[(0 : ℚ)]] = true ∧
    ((fitResult constDiscriminator [[(0 : ℚ)]]).decision_scores =
      some (constDiscriminator.score [[(0 : ℚ)]]) ∧
      (constDiscriminator.score [[(0 : ℚ)]]).length = [[(0 : ℚ)]].length) :=
  ⟨by decide, decision_scores_shape constDiscriminator [[(0 : ℚ)]] (by decide)⟩

/-- Claim C8: `decision_function` raises the fitted-state precondition error
if and only if it is called before `fit` has produced a discriminator; on a
fitted model it does not raise for any valid numeric 2D input and returns
one score per row. -/
theorem decision_function_fitted_guard :
    (∀ m X, decision_function m X = .error .notFitted ↔
      m.discriminator = none) ∧
    (∀ m D X, m.discriminator = some D → validArrayB X = true →
      decision_function m X = .ok (D.score X) ∧
        (D.score X).length = X.length) := by
  constructor
  · intro m X
    unfold decision_function check_is_fitted check_array
    cases hm : m.discriminator with
    | none => simp
    | some D =>
      by_cases hv : validArrayB X = true
      · simp [hv]
      · simp [hv]
  · intro m D X hm hv
    unfold decision_function check_is_fitted check_array
    rw [hm]
    simp [hv, D.score_length X]

/-- Witness for C8: a fitted model on the valid input `[[0]]`. -/
theorem decision_function_fitted_guard_w :
    (fitResult constDiscriminator [[(0 : ℚ)]]).discriminator =
      some constDiscriminator ∧
    validArrayB [[(0 : ℚ)]] = true ∧
    (decision_function (fitResult constDiscriminator [[(0 : ℚ)]])
        [[(0 : ℚ)]] = .ok (constDiscriminator.score [[(0 : ℚ)]]) ∧
      (constDiscriminator.score [[(0 : ℚ)]]).length = [[(0 : ℚ)]].length) :=
  ⟨rfl, by decide,
    decision_function_fitted_guard.2 (fitResult constDiscriminator
      [[(0 : ℚ)]]) constDiscriminator [[(0 : ℚ)]] rfl (by decide)⟩

/-- One call of `decision_function` as a state transition: the method body
only reads `self.discriminator` and runs the forward pass, assigning no
attribute of the estimator, so the estimator state is returned unchanged. -/
def decision_function_call (m : MO_GAAL) (X : List (List ℚ)) :
    Except ScoreError (List ℚ) × MO_GAAL :=
  (decision_function m X, m)

/-- Claim C9: calling `decision_function` twice on an already-fitted model
with identical input yields identical output, and the call mutates neither
the discriminator nor any other estimator state. -/
theorem decision_function_idempotent (m : MO_GAAL) (X : List (List ℚ)) :
    (decision_function_call m X).2 = m ∧
    (decision_function_call ((decision_function_call m X).2) X).1 =
      (decision_function_call m X).1 :=
  ⟨rfl, rfl⟩

end MoGaal
